import Mathlib

/-!
Verification of the Weisfeiler-Lehman graph kernel (WLGK) implementation
(`wlgk.py`): colour refinement, histogram accumulation, and cosine-similarity
comparison of colour histograms.

The graph is the external collaborator the code consumes: a node list together
with degree queries and neighbour / predecessor / successor enumeration, plus a
directedness flag.  Python's `hash` is modelled by an arbitrary pair of
functions (one for hashing integers, one for hashing tuples of integers); every
property proved below holds for every such hash.  Floating-point arithmetic of
the final comparison step is modelled by exact real arithmetic; `num_iterations`
is an integer and the refinement loop runs `max num_iterations 0` times,
matching Python's `range`.
-/

namespace Wlgk

/-- The graph abstraction consumed by the kernel: node enumeration, degree
queries and neighbour/predecessor/successor enumeration, with a directedness
flag (mirrors the `networkx` interface used by `wlgk.py`). -/
structure Graph where
  directed : Bool
  nodes : List ℕ
  deg : ℕ → ℕ
  in_deg : ℕ → ℕ
  out_deg : ℕ → ℕ
  neighbors : ℕ → List ℕ
  predecessors : ℕ → List ℕ
  successors : ℕ → List ℕ

/-- Model of Python's `hash`, split by argument shape as used in the code:
`int` hashes an integer (`hash(G.degree(node))`), `tup` hashes a tuple of
integers (`hash(tuple(...))`).  All theorems hold for an arbitrary hash. -/
structure HashFn where
  int : ℤ → ℤ
  tup : List ℤ → ℤ

/-- Insert an integer into a sorted list, keeping it sorted ascending. -/
def insertSorted (x : ℤ) : List ℤ → List ℤ
  | [] => [x]
  | y :: ys => if x ≤ y then x :: y :: ys else y :: insertSorted x ys

/-- Ascending sort of a list of integers (Python's `sorted`). -/
def sortedAsc (l : List ℤ) : List ℤ := l.foldr insertSorted []

/-- `_get_initial_colours`: each node's colour is the hash of its degree
(undirected) or of its (in-degree, out-degree) pair (directed). -/
def get_initial_colours (h : HashFn) (G : Graph) : ℕ → ℤ :=
  fun node =>
    if G.directed then h.tup [(G.in_deg node : ℤ), (G.out_deg node : ℤ)]
    else h.int (G.deg node)

/-- One `colour_counts[colour] = colour_counts.get(colour, 0) + 1` step on the
histogram, kept as an insertion-ordered association list like a Python dict. -/
def bumpColour : List (ℤ × ℕ) → ℤ → List (ℤ × ℕ)
  | [], c => [(c, 1)]
  | (k, v) :: rest, c =>
      if k = c then (k, v + 1) :: rest else (k, v) :: bumpColour rest c

/-- `_update_colour_counts`: increment the histogram once per colour
observation, iterating over the node-colour map's values. -/
def update_colour_counts (colour_counts : List (ℤ × ℕ)) (colours : List ℤ) :
    List (ℤ × ℕ) :=
  colours.foldl bumpColour colour_counts

/-- `_new_colour_from_colour_pair`: hash of the ascending-sorted pair. -/
def new_colour_from_colour_pair (h : HashFn) (colour_1 colour_2 : ℤ) : ℤ :=
  h.tup (sortedAsc [colour_1, colour_2])

/-- `_new_colour_from_neighbours`: the neighbourhood signature of a node. -/
def new_colour_from_neighbours (h : HashFn) (G : Graph) (node : ℕ)
    (node_colours : ℕ → ℤ) : ℤ :=
  if G.directed = false then
    h.tup (sortedAsc ((G.neighbors node).map node_colours))
  else
    h.tup [h.tup (sortedAsc ((G.predecessors node).map node_colours)),
           h.tup (sortedAsc ((G.successors node).map node_colours))]

/-- One refinement round: every node's new colour combines its previous colour
with its neighbourhood signature, all reads from the previous round's map. -/
def refineStep (h : HashFn) (G : Graph) (node_colours : ℕ → ℤ) : ℕ → ℤ :=
  fun node =>
    new_colour_from_colour_pair h (node_colours node)
      (new_colour_from_neighbours h G node node_colours)

/-- The `for _ in range(num_iterations)` loop of `_compute_colour_counts`:
each round replaces the node colours and accumulates them into the histogram. -/
def refineLoop (h : HashFn) (G : Graph) :
    ℕ → (ℕ → ℤ) → List (ℤ × ℕ) → List (ℤ × ℕ)
  | 0, _, colour_counts => colour_counts
  | k + 1, node_colours, colour_counts =>
      let new_node_colours := refineStep h G node_colours
      refineLoop h G k new_node_colours
        (update_colour_counts colour_counts (G.nodes.map new_node_colours))

/-- `_compute_colour_counts`: initial colouring, one accumulation pass, then
`num_iterations` refinement rounds (zero rounds when `num_iterations ≤ 0`,
matching `range`). -/
def compute_colour_counts (h : HashFn) (G : Graph) (num_iterations : ℤ) :
    List (ℤ × ℕ) :=
  let node_colours := get_initial_colours h G
  let colour_counts := update_colour_counts [] (G.nodes.map node_colours)
  refineLoop h G num_iterations.toNat node_colours colour_counts

/-- Python's `dict.get(c, 0)` on the histogram. -/
def countGet : List (ℤ × ℕ) → ℤ → ℕ
  | [], _ => 0
  | (k, v) :: rest, c => if k = c then v else countGet rest c

/-- The colour keys of a histogram. -/
def ccKeys (colour_counts : List (ℤ × ℕ)) : List ℤ :=
  colour_counts.map Prod.fst

/-- The union of the colours of the two histograms (the iteration order of the
Python `set` is arbitrary; here: first occurrences of `keys1 ++ keys2`). -/
def union_colours (cc1 cc2 : List (ℤ × ℕ)) : List ℤ :=
  (ccKeys cc1 ++ ccKeys cc2).dedup

/-- The count vector of one histogram over a list of colours, 0 for absent. -/
def colour_vector (union : List ℤ) (colour_counts : List (ℤ × ℕ)) : List ℕ :=
  union.map (countGet colour_counts)

/-- `np.linalg.norm`: Euclidean norm of a count vector. -/
noncomputable def vecNorm (v : List ℕ) : ℝ :=
  Real.sqrt ((v.map (fun x : ℕ => (x : ℝ) ^ 2)).sum)

/-- L2-normalisation of a count vector (entrywise division by the norm). -/
noncomputable def normalise (v : List ℕ) : List ℝ :=
  v.map (fun x : ℕ => (x : ℝ) / vecNorm v)

/-- `np.dot` on two equal-length real vectors. -/
noncomputable def dotR (xs ys : List ℝ) : ℝ :=
  (List.zipWith (· * ·) xs ys).sum

/-- `_compute_wlgk_from_colour_counts`: build the two count vectors over the
colour union, L2-normalise each, and return their dot product. -/
noncomputable def compute_wlgk_from_colour_counts (cc1 cc2 : List (ℤ × ℕ)) : ℝ :=
  let union := union_colours cc1 cc2
  dotR (normalise (colour_vector union cc1)) (normalise (colour_vector union cc2))

/-- `wlgk`: the public entry point.  If either graph has no nodes the function
short-circuits to 1.0 (the accompanying printed warning is I/O and is not
modelled); otherwise the two histograms are computed and compared. -/
noncomputable def wlgk (h : HashFn) (G1 G2 : Graph) (num_iterations : ℤ) : ℝ :=
  if G1.nodes.length = 0 ∨ G2.nodes.length = 0 then 1
  else
    compute_wlgk_from_colour_counts
      (compute_colour_counts h G1 num_iterations)
      (compute_colour_counts h G2 num_iterations)

/-! ### Auxiliary definitions for the statements and witnesses -/

/-- Total number of observations recorded in a histogram. -/
def ccTotal (colour_counts : List (ℤ × ℕ)) : ℕ :=
  (colour_counts.map Prod.snd).sum

/-- Every count in the histogram is at least 1. -/
def PosCounts (colour_counts : List (ℤ × ℕ)) : Prop :=
  ∀ p ∈ colour_counts, 1 ≤ p.2

/-- The union of the two histograms' colour keys, as a finite set. -/
def keySet (cc1 cc2 : List (ℤ × ℕ)) : Finset ℤ :=
  (ccKeys cc1).toFinset ∪ (ccKeys cc2).toFinset

/-- A concrete hash instantiation used by the witnesses. -/
def idHash : HashFn :=
  { int := fun z => z, tup := fun l => l.sum }

/-- The undirected triangle, a concrete non-empty graph for the witnesses. -/
def triGraph : Graph where
  directed := false
  nodes := [1, 2, 3]
  deg := fun _ => 2
  in_deg := fun _ => 1
  out_deg := fun _ => 1
  neighbors := fun v => if v = 1 then [2, 3] else if v = 2 then [3, 1] else [1, 2]
  predecessors := fun v => if v = 1 then [3] else if v = 2 then [1] else [2]
  successors := fun v => if v = 1 then [2] else if v = 2 then [3] else [1]

/-- A directed graph with no nodes, for the empty-graph witnesses. -/
def emptyGraph : Graph where
  directed := true
  nodes := []
  deg := fun _ => 0
  in_deg := fun _ => 0
  out_deg := fun _ => 0
  neighbors := fun _ => []
  predecessors := fun _ => []
  successors := fun _ => []

/-! ### Histogram lemmas -/

theorem countGet_bumpColour (cc : List (ℤ × ℕ)) (c' c : ℤ) :
    countGet (bumpColour cc c') c = countGet cc c + if c' = c then 1 else 0 := by
  induction cc with
  | nil => simp [bumpColour, countGet]
  | cons p rest ih =>
      obtain ⟨k, v⟩ := p
      by_cases hk : k = c'
      · by_cases hc : k = c
        · have hcc : c' = c := hk.symm.trans hc
          simp [bumpColour, countGet, hk, hc, hcc]
        · have hcc : ¬ c' = c := fun hE => hc (hk.trans hE)
          simp [bumpColour, countGet, hk, hc, hcc]
      · by_cases hc : k = c
        · have hcc : ¬ c' = c := fun hE => hk (hc.trans hE.symm)
          have hk' : ¬ c = c' := fun hE => hk (hc.trans hE)
          simp [bumpColour, countGet, hk, hc, hcc, hk']
        · simp [bumpColour, countGet, hk, hc, ih]

theorem countGet_update (l : List ℤ) (cc : List (ℤ × ℕ)) (c : ℤ) :
    countGet (update_colour_counts cc l) c = countGet cc c + l.count c := by
  induction l generalizing cc with
  | nil => simp [update_colour_counts]
  | cons x xs ih =>
      have hstep : update_colour_counts cc (x :: xs) =
          update_colour_counts (bumpColour cc x) xs := rfl
      rw [hstep, ih, countGet_bumpColour]
      by_cases hx : x = c
      · subst hx
        rw [if_pos rfl, List.count_cons_self]
        omega
      · rw [if_neg hx, List.count_cons_of_ne (fun hE => hx hE.symm)]
        omega

theorem bumpColour_ne_nil (cc : List (ℤ × ℕ)) (c : ℤ) : bumpColour cc c ≠ [] := by
  cases cc with
  | nil => simp [bumpColour]
  | cons p rest =>
      obtain ⟨k, v⟩ := p
      by_cases hk : k = c <;> simp [bumpColour, hk]

theorem update_ne_nil_left (l : List ℤ) (cc : List (ℤ × ℕ)) (hcc : cc ≠ []) :
    update_colour_counts cc l ≠ [] := by
  induction l generalizing cc with
  | nil => simpa [update_colour_counts]
  | cons x xs ih =>
      simp only [update_colour_counts, List.foldl_cons]
      exact ih (bumpColour cc x) (bumpColour_ne_nil cc x)

theorem update_ne_nil_right (l : List ℤ) (cc : List (ℤ × ℕ)) (hl : l ≠ []) :
    update_colour_counts cc l ≠ [] := by
  cases l with
  | nil => exact absurd rfl hl
  | cons x xs =>
      simp only [update_colour_counts, List.foldl_cons]
      exact update_ne_nil_left xs (bumpColour cc x) (bumpColour_ne_nil cc x)

theorem posCounts_bumpColour (cc : List (ℤ × ℕ)) (c : ℤ) (hcc : PosCounts cc) :
    PosCounts (bumpColour cc c) := by
  induction cc with
  | nil =>
      intro p hp
      simp [bumpColour] at hp
      simp [hp]
  | cons q rest ih =>
      obtain ⟨k, v⟩ := q
      have hrest : PosCounts rest := fun p hp => hcc p (List.mem_cons_of_mem _ hp)
      have hv : 1 ≤ v := hcc (k, v) (List.mem_cons_self _ _)
      by_cases hk : k = c
      · intro p hp
        simp only [bumpColour, if_pos hk] at hp
        rcases List.mem_cons.mp hp with h | h
        · subst h; exact Nat.le_succ_of_le hv
        · exact hrest p h
      · intro p hp
        simp only [bumpColour, if_neg hk] at hp
        rcases List.mem_cons.mp hp with h | h
        · subst h; exact hv
        · exact ih hrest p h

theorem posCounts_update (l : List ℤ) (cc : List (ℤ × ℕ)) (hcc : PosCounts cc) :
    PosCounts (update_colour_counts cc l) := by
  induction l generalizing cc with
  | nil => simpa [update_colour_counts]
  | cons x xs ih =>
      simp only [update_colour_counts, List.foldl_cons]
      exact ih (bumpColour cc x) (posCounts_bumpColour cc x hcc)

theorem ccTotal_bumpColour (cc : List (ℤ × ℕ)) (c : ℤ) :
    ccTotal (bumpColour cc c) = ccTotal cc + 1 := by
  induction cc with
  | nil => simp [bumpColour, ccTotal]
  | cons p rest ih =>
      obtain ⟨k, v⟩ := p
      by_cases hk : k = c
      · simp [bumpColour, hk, ccTotal]
        omega
      · simp [bumpColour, hk, ccTotal] at *
        omega

theorem ccTotal_update (l : List ℤ) (cc : List (ℤ × ℕ)) :
    ccTotal (update_colour_counts cc l) = ccTotal cc + l.length := by
  induction l generalizing cc with
  | nil => simp [update_colour_counts]
  | cons x xs ih =>
      have hstep : update_colour_counts cc (x :: xs) =
          update_colour_counts (bumpColour cc x) xs := rfl
      rw [hstep, ih, ccTotal_bumpColour, List.length_cons]
      omega

theorem refineLoop_total (h : HashFn) (G : Graph) (k : ℕ) (colours : ℕ → ℤ)
    (cc : List (ℤ × ℕ)) :
    ccTotal (refineLoop h G k colours cc) = ccTotal cc + k * G.nodes.length := by
  induction k generalizing colours cc with
  | zero => simp [refineLoop]
  | succ m ih =>
      simp only [refineLoop]
      rw [ih, ccTotal_update]
      simp [List.length_map]
      ring

theorem refineLoop_ne_nil (h : HashFn) (G : Graph) (k : ℕ) (colours : ℕ → ℤ)
    (cc : List (ℤ × ℕ)) (hcc : cc ≠ []) : refineLoop h G k colours cc ≠ [] := by
  induction k generalizing colours cc with
  | zero => simpa [refineLoop]
  | succ m ih =>
      simp only [refineLoop]
      exact ih _ _ (update_ne_nil_left _ _ hcc)

theorem refineLoop_posCounts (h : HashFn) (G : Graph) (k : ℕ) (colours : ℕ → ℤ)
    (cc : List (ℤ × ℕ)) (hcc : PosCounts cc) : PosCounts (refineLoop h G k colours cc) := by
  induction k generalizing colours cc with
  | zero => simpa [refineLoop]
  | succ m ih =>
      simp only [refineLoop]
      exact ih _ _ (posCounts_update _ _ hcc)

theorem compute_colour_counts_ne_nil (h : HashFn) (G : Graph) (n : ℤ)
    (hG : G.nodes ≠ []) : compute_colour_counts h G n ≠ [] := by
  unfold compute_colour_counts
  refine refineLoop_ne_nil h G _ _ _ ?_
  exact update_ne_nil_right _ _ (by simpa using hG)

theorem compute_colour_counts_posCounts (h : HashFn) (G : Graph) (n : ℤ) :
    PosCounts (compute_colour_counts h G n) := by
  unfold compute_colour_counts
  refine refineLoop_posCounts h G _ _ _ ?_
  exact posCounts_update _ [] (by intro p hp; simp at hp)

theorem compute_colour_counts_total (h : HashFn) (G : Graph) (n : ℤ) :
    ccTotal (compute_colour_counts h G n) = (n.toNat + 1) * G.nodes.length := by
  unfold compute_colour_counts
  rw [refineLoop_total, ccTotal_update]
  simp [ccTotal]
  ring

/-! ### The comparator as a closed formula over the union of colour keys -/

theorem union_colours_nodup (cc1 cc2 : List (ℤ × ℕ)) :
    (union_colours cc1 cc2).Nodup :=
  List.nodup_dedup _

theorem union_colours_toFinset (cc1 cc2 : List (ℤ × ℕ)) :
    (union_colours cc1 cc2).toFinset = keySet cc1 cc2 := by
  ext a
  simp [union_colours, keySet, List.mem_dedup]

theorem dotR_map (u : List ℤ) (F G : ℤ → ℝ) :
    dotR (u.map F) (u.map G) = (u.map fun c => F c * G c).sum := by
  induction u with
  | nil => simp [dotR]
  | cons x xs ih =>
      simp only [List.map_cons, dotR, List.zipWith_cons_cons, List.sum_cons] at *
      rw [ih]

theorem sum_map_div (u : List ℤ) (F : ℤ → ℝ) (d : ℝ) :
    (u.map fun c => F c / d).sum = (u.map F).sum / d := by
  induction u with
  | nil => simp
  | cons x xs ih => simp [ih, add_div]

theorem compute_wlgk_formula (cc1 cc2 : List (ℤ × ℕ)) :
    compute_wlgk_from_colour_counts cc1 cc2 =
      (∑ c ∈ keySet cc1 cc2, (countGet cc1 c : ℝ) * (countGet cc2 c : ℝ)) /
        (Real.sqrt (∑ c ∈ keySet cc1 cc2, (countGet cc1 c : ℝ) ^ 2) *
         Real.sqrt (∑ c ∈ keySet cc1 cc2, (countGet cc2 c : ℝ) ^ 2)) := by
  have hnd : (union_colours cc1 cc2).Nodup := union_colours_nodup cc1 cc2
  have hsum : ∀ F : ℤ → ℝ, ∑ c ∈ keySet cc1 cc2, F c =
      ((union_colours cc1 cc2).map F).sum := by
    intro F
    rw [← union_colours_toFinset, List.sum_toFinset _ hnd]
  have hnorm : ∀ cc : List (ℤ × ℕ),
      vecNorm (colour_vector (union_colours cc1 cc2) cc) =
        Real.sqrt (((union_colours cc1 cc2).map
          (fun c => (countGet cc c : ℝ) ^ 2)).sum) := by
    intro cc
    simp only [vecNorm, colour_vector, List.map_map]
    rfl
  have hvec : ∀ cc : List (ℤ × ℕ),
      normalise (colour_vector (union_colours cc1 cc2) cc) =
        (union_colours cc1 cc2).map
          (fun c => (countGet cc c : ℝ) /
            vecNorm (colour_vector (union_colours cc1 cc2) cc)) := by
    intro cc
    simp only [normalise, colour_vector, List.map_map]
    rfl
  simp only [compute_wlgk_from_colour_counts]
  rw [hvec cc1, hvec cc2, dotR_map]
  simp only [div_mul_div_comm]
  rw [sum_map_div, hsum, hsum, hsum, hnorm, hnorm]

theorem sum_sq_pos_of_posCounts (cc : List (ℤ × ℕ)) (T : Finset ℤ)
    (hne : cc ≠ []) (hpos : PosCounts cc)
    (hsub : (ccKeys cc).toFinset ⊆ T) :
    0 < ∑ c ∈ T, (countGet cc c : ℝ) ^ 2 := by
  obtain ⟨p, rest, rfl⟩ := List.exists_cons_of_ne_nil hne
  obtain ⟨k, v⟩ := p
  have hv : 1 ≤ v := hpos (k, v) (List.mem_cons_self _ _)
  have hkmem : k ∈ T := hsub (by simp [ccKeys])
  refine Finset.sum_pos' (fun c _ => sq_nonneg _) ⟨k, hkmem, ?_⟩
  have hget : countGet ((k, v) :: rest) k = v := by simp [countGet]
  rw [hget]
  have hv' : (0 : ℝ) < v := by exact_mod_cast hv
  positivity

/-! ### Sorting the two-element list is order-independent -/

theorem sortedAsc_pair (a b : ℤ) : sortedAsc [a, b] = sortedAsc [b, a] := by
  simp only [sortedAsc, List.foldr, insertSorted]
  by_cases hab : a ≤ b <;> by_cases hba : b ≤ a <;>
    simp [insertSorted, hab, hba] <;> omega

/-! ### The claims -/

/-- Claim C5: combining a colour pair is symmetric in its two arguments —
`_new_colour_from_colour_pair(a, b)` and `_new_colour_from_colour_pair(b, a)`
produce the same colour, because the pair is sorted ascending before hashing. -/
theorem claim_C5_pair_symmetric (h : HashFn) (a b : ℤ) :
    new_colour_from_colour_pair h a b = new_colour_from_colour_pair h b a := by
  unfold new_colour_from_colour_pair
  rw [sortedAsc_pair]

/-- Claim C4: the histogram of a graph accumulates one observation per node for
the initial colouring and one per node per refinement round, so its total count
is `(num_iterations + 1) * node_count`. -/
theorem claim_C4_histogram_total (h : HashFn) (G : Graph) (n : ℤ) (hn : 0 ≤ n) :
    (ccTotal (compute_colour_counts h G n) : ℤ) = (n + 1) * G.nodes.length := by
  rw [compute_colour_counts_total]
  push_cast
  rw [Int.toNat_of_nonneg hn]

/-- Witness for claim C4 at a concrete hash, graph and iteration count. -/
theorem claim_C4_histogram_total_witness :
    (0 : ℤ) ≤ 2 ∧
      (ccTotal (compute_colour_counts idHash triGraph 2) : ℤ) =
        (2 + 1) * triGraph.nodes.length :=
  ⟨by decide, claim_C4_histogram_total idHash triGraph 2 (by decide)⟩

/-- Claim C3: when either graph has zero nodes, `wlgk` returns exactly 1.0
without running any colouring, refinement or comparison and without raising
(the printed diagnostic notice is I/O and outside the model). -/
theorem claim_C3_empty_graph_returns_one (h : HashFn) (G1 G2 : Graph) (n : ℤ)
    (he : G1.nodes = [] ∨ G2.nodes = []) : wlgk h G1 G2 n = 1 := by
  have hlen : G1.nodes.length = 0 ∨ G2.nodes.length = 0 := by
    rcases he with h1 | h2
    · exact Or.inl (by simp [h1])
    · exact Or.inr (by simp [h2])
  unfold wlgk
  exact if_pos hlen

/-- Witness for claim C3: an empty directed graph against the triangle. -/
theorem claim_C3_empty_graph_returns_one_witness :
    (emptyGraph.nodes = [] ∨ triGraph.nodes = []) ∧
      wlgk idHash emptyGraph triGraph 5 = 1 :=
  ⟨Or.inl rfl, claim_C3_empty_graph_returns_one idHash emptyGraph triGraph 5 (Or.inl rfl)⟩

/-- Claim C10: a negative `num_iterations` is accepted: the refinement loop
runs zero times (Python's `range`), so the result coincides with zero
iterations and no error is raised. -/
theorem claim_C10_negative_iterations (h : HashFn) (G1 G2 : Graph) (n : ℤ)
    (h1 : G1.nodes ≠ []) (h2 : G2.nodes ≠ []) (hn : n < 0) :
    wlgk h G1 G2 n = wlgk h G1 G2 0 := by
  have htn : n.toNat = (0 : ℤ).toNat := by
    rw [Int.toNat_of_nonpos hn.le]
    rfl
  unfold wlgk compute_colour_counts
  rw [htn]

/-- Witness for claim C10 at `num_iterations = -3`. -/
theorem claim_C10_negative_iterations_witness :
    (triGraph.nodes ≠ [] ∧ (-3 : ℤ) < 0) ∧
      wlgk idHash triGraph triGraph (-3) = wlgk idHash triGraph triGraph 0 :=
  ⟨⟨by decide, by decide⟩,
    claim_C10_negative_iterations idHash triGraph triGraph (-3)
      (by decide) (by decide) (by decide)⟩

/-- Claim C8 (counterexample): invoked on two empty histograms — whose count
vectors are entirely zero — the comparator does not fail at all: it silently
returns 0 (the empty union yields empty vectors, a zero norm and an empty dot
product), contradicting "fails loudly with a fatal error". -/
theorem claim_C8_counterexample :
    compute_wlgk_from_colour_counts [] [] = 0 := rfl

/-- Claim C8 (amended): if the kernel comparator is invoked with empty
histograms (entirely zero count vectors) outside the empty-graph shortcut, it
does not fail loudly: it silently returns the number 0. -/
theorem claim_C8_amended_silent_zero (cc1 cc2 : List (ℤ × ℕ))
    (hc1 : cc1 = []) (hc2 : cc2 = []) :
    compute_wlgk_from_colour_counts cc1 cc2 = 0 := by
  subst hc1
  subst hc2
  rfl

/-- Witness for the amended claim C8. -/
theorem claim_C8_amended_silent_zero_witness :
    (([] : List (ℤ × ℕ)) = [] ∧ ([] : List (ℤ × ℕ)) = []) ∧
      compute_wlgk_from_colour_counts [] [] = 0 :=
  ⟨⟨rfl, rfl⟩, claim_C8_amended_silent_zero [] [] rfl rfl⟩

theorem vecNorm_union_colours (cc1 cc2 cc : List (ℤ × ℕ)) :
    vecNorm (colour_vector (union_colours cc1 cc2) cc) =
      Real.sqrt (∑ c ∈ keySet cc1 cc2, (countGet cc c : ℝ) ^ 2) := by
  have hmap : vecNorm (colour_vector (union_colours cc1 cc2) cc) =
      Real.sqrt (((union_colours cc1 cc2).map
        (fun c => (countGet cc c : ℝ) ^ 2)).sum) := by
    simp only [vecNorm, colour_vector, List.map_map]
    rfl
  rw [hmap, ← List.sum_toFinset _ (union_colours_nodup cc1 cc2),
    union_colours_toFinset]

/-- Claim C1: comparing a non-empty graph with itself produces identical
histograms, whose normalised vectors have dot product exactly 1, hence within
1e-5 of 1.0, for any iteration count `≥ 0` and any hash. -/
theorem claim_C1_identity (h : HashFn) (G : Graph) (n : ℤ)
    (hG : G.nodes ≠ []) (hn : 0 ≤ n) :
    |wlgk h G G n - 1| ≤ 1e-5 := by
  have hlen : ¬ (G.nodes.length = 0 ∨ G.nodes.length = 0) := by
    simp [List.length_eq_zero, hG]
  have hS : 0 < ∑ c ∈ keySet (compute_colour_counts h G n) (compute_colour_counts h G n),
      (countGet (compute_colour_counts h G n) c : ℝ) ^ 2 :=
    sum_sq_pos_of_posCounts _ _ (compute_colour_counts_ne_nil h G n hG)
      (compute_colour_counts_posCounts h G n) Finset.subset_union_left
  have hmain : wlgk h G G n = 1 := by
    unfold wlgk
    rw [if_neg hlen, compute_wlgk_formula]
    have hNum : (∑ c ∈ keySet (compute_colour_counts h G n) (compute_colour_counts h G n),
        (countGet (compute_colour_counts h G n) c : ℝ) *
          (countGet (compute_colour_counts h G n) c : ℝ)) =
        ∑ c ∈ keySet (compute_colour_counts h G n) (compute_colour_counts h G n),
          (countGet (compute_colour_counts h G n) c : ℝ) ^ 2 :=
      Finset.sum_congr rfl fun c _ => (sq ((countGet (compute_colour_counts h G n) c : ℝ))).symm ▸ (pow_two _).symm
    rw [hNum, Real.mul_self_sqrt hS.le, div_self hS.ne']
  rw [hmain]
  norm_num

/-- Witness for claim C1 on the triangle with 2 iterations. -/
theorem claim_C1_identity_witness :
    (triGraph.nodes ≠ [] ∧ (0 : ℤ) ≤ 2) ∧
      |wlgk idHash triGraph triGraph 2 - 1| ≤ 1e-5 :=
  ⟨⟨by decide, by decide⟩, claim_C1_identity idHash triGraph 2 (by decide) (by decide)⟩

theorem wlgk_nonneg_and_le_one (h : HashFn) (G1 G2 : Graph) (n : ℤ)
    (h1 : G1.nodes ≠ []) (h2 : G2.nodes ≠ []) :
    0 ≤ wlgk h G1 G2 n ∧ wlgk h G1 G2 n ≤ 1 := by
  have hlen : ¬ (G1.nodes.length = 0 ∨ G2.nodes.length = 0) := by
    simp [List.length_eq_zero, h1, h2]
  unfold wlgk
  rw [if_neg hlen, compute_wlgk_formula]
  set cc1 := compute_colour_counts h G1 n
  set cc2 := compute_colour_counts h G2 n
  have hS1 : 0 < ∑ c ∈ keySet cc1 cc2, (countGet cc1 c : ℝ) ^ 2 :=
    sum_sq_pos_of_posCounts _ _ (compute_colour_counts_ne_nil h G1 n h1)
      (compute_colour_counts_posCounts h G1 n) Finset.subset_union_left
  have hS2 : 0 < ∑ c ∈ keySet cc1 cc2, (countGet cc2 c : ℝ) ^ 2 :=
    sum_sq_pos_of_posCounts _ _ (compute_colour_counts_ne_nil h G2 n h2)
      (compute_colour_counts_posCounts h G2 n) Finset.subset_union_right
  have hN : 0 ≤ ∑ c ∈ keySet cc1 cc2, (countGet cc1 c : ℝ) * (countGet cc2 c : ℝ) :=
    Finset.sum_nonneg fun c _ => mul_nonneg (Nat.cast_nonneg _) (Nat.cast_nonneg _)
  have hden : 0 < Real.sqrt (∑ c ∈ keySet cc1 cc2, (countGet cc1 c : ℝ) ^ 2) *
      Real.sqrt (∑ c ∈ keySet cc1 cc2, (countGet cc2 c : ℝ) ^ 2) :=
    mul_pos (Real.sqrt_pos.mpr hS1) (Real.sqrt_pos.mpr hS2)
  have hCS : (∑ c ∈ keySet cc1 cc2, (countGet cc1 c : ℝ) * (countGet cc2 c : ℝ)) ≤
      Real.sqrt (∑ c ∈ keySet cc1 cc2, (countGet cc1 c : ℝ) ^ 2) *
        Real.sqrt (∑ c ∈ keySet cc1 cc2, (countGet cc2 c : ℝ) ^ 2) := by
    rw [← Real.sqrt_mul hS1.le]
    exact (Real.le_sqrt hN (mul_nonneg hS1.le hS2.le)).mpr
      (Finset.sum_mul_sq_le_sq_mul_sq _ _ _)
  exact ⟨div_nonneg hN hden.le, (div_le_one hden).mpr hCS⟩

/-- Claim C2: for non-empty graphs and any iteration count the kernel value
lies in `[0 - 1e-5, 1 + 1e-5]` — in fact exactly in `[0, 1]`: counts are
non-negative, and Cauchy-Schwarz bounds the normalised dot product by 1. -/
theorem claim_C2_range (h : HashFn) (G1 G2 : Graph) (n : ℤ)
    (h1 : G1.nodes ≠ []) (h2 : G2.nodes ≠ []) (hn : 0 ≤ n) :
    0 - 1e-5 ≤ wlgk h G1 G2 n ∧ wlgk h G1 G2 n ≤ 1 + 1e-5 := by
  obtain ⟨ha, hb⟩ := wlgk_nonneg_and_le_one h G1 G2 n h1 h2
  have hlow : (0 : ℝ) - 1e-5 ≤ 0 := by norm_num
  have hhigh : (1 : ℝ) ≤ 1 + 1e-5 := by norm_num
  exact ⟨hlow.trans ha, hb.trans hhigh⟩

/-- Witness for claim C2: triangle against itself. -/
theorem claim_C2_range_witness :
    (triGraph.nodes ≠ [] ∧ (0 : ℤ) ≤ 1) ∧
      0 - 1e-5 ≤ wlgk idHash triGraph triGraph 1 ∧
        wlgk idHash triGraph triGraph 1 ≤ 1 + 1e-5 :=
  ⟨⟨by decide, by decide⟩,
    claim_C2_range idHash triGraph triGraph 1 (by decide) (by decide) (by decide)⟩

theorem wlgk_comm (h : HashFn) (G1 G2 : Graph) (n : ℤ) :
    wlgk h G1 G2 n = wlgk h G2 G1 n := by
  unfold wlgk
  by_cases hc : G1.nodes.length = 0 ∨ G2.nodes.length = 0
  · rw [if_pos hc, if_pos hc.symm]
  · rw [if_neg hc, if_neg (fun hco => hc hco.symm),
      compute_wlgk_formula, compute_wlgk_formula]
    have hKS : keySet (compute_colour_counts h G2 n) (compute_colour_counts h G1 n) =
        keySet (compute_colour_counts h G1 n) (compute_colour_counts h G2 n) := by
      unfold keySet
      exact Finset.union_comm _ _
    rw [hKS, mul_comm (Real.sqrt _)]
    congr 1
    exact Finset.sum_congr rfl fun c _ => mul_comm _ _

/-- Claim C6: swapping the two graph arguments does not change the score — the
two values agree exactly, hence within 1e-5 of each other. -/
theorem claim_C6_symmetry (h : HashFn) (G1 G2 : Graph) (n : ℤ)
    (h1 : G1.nodes ≠ []) (h2 : G2.nodes ≠ []) (hn : 0 ≤ n) :
    |wlgk h G1 G2 n - wlgk h G2 G1 n| ≤ 1e-5 := by
  rw [wlgk_comm h G1 G2 n, sub_self, abs_zero]
  norm_num

/-- Witness for claim C6: triangle against the empty-neighbourhood-free pair
(triangle, triangle) at 2 iterations. -/
theorem claim_C6_symmetry_witness :
    (triGraph.nodes ≠ [] ∧ (0 : ℤ) ≤ 2) ∧
      |wlgk idHash triGraph triGraph 2 - wlgk idHash triGraph triGraph 2| ≤ 1e-5 :=
  ⟨⟨by decide, by decide⟩,
    claim_C6_symmetry idHash triGraph triGraph 2 (by decide) (by decide) (by decide)⟩

/-- Claim C7: when both graphs are non-empty, each histogram handed to the
comparator is non-empty with every count at least 1, so both count vectors
built over the colour union have strictly positive Euclidean norm — the
division by a zero norm is unreachable. -/
theorem claim_C7_norms_positive (h : HashFn) (G1 G2 : Graph) (n : ℤ)
    (h1 : G1.nodes ≠ []) (h2 : G2.nodes ≠ []) :
    compute_colour_counts h G1 n ≠ [] ∧ PosCounts (compute_colour_counts h G1 n) ∧
    compute_colour_counts h G2 n ≠ [] ∧ PosCounts (compute_colour_counts h G2 n) ∧
    0 < vecNorm (colour_vector
        (union_colours (compute_colour_counts h G1 n) (compute_colour_counts h G2 n))
        (compute_colour_counts h G1 n)) ∧
    0 < vecNorm (colour_vector
        (union_colours (compute_colour_counts h G1 n) (compute_colour_counts h G2 n))
        (compute_colour_counts h G2 n)) := by
  refine ⟨compute_colour_counts_ne_nil h G1 n h1, compute_colour_counts_posCounts h G1 n,
    compute_colour_counts_ne_nil h G2 n h2, compute_colour_counts_posCounts h G2 n, ?_, ?_⟩
  · rw [vecNorm_union_colours]
    exact Real.sqrt_pos.mpr
      (sum_sq_pos_of_posCounts _ _ (compute_colour_counts_ne_nil h G1 n h1)
        (compute_colour_counts_posCounts h G1 n) Finset.subset_union_left)
  · rw [vecNorm_union_colours]
    exact Real.sqrt_pos.mpr
      (sum_sq_pos_of_posCounts _ _ (compute_colour_counts_ne_nil h G2 n h2)
        (compute_colour_counts_posCounts h G2 n) Finset.subset_union_right)

/-- Witness for claim C7: the two triangle histograms at 1 iteration. -/
theorem claim_C7_norms_positive_witness :
    (triGraph.nodes ≠ []) ∧
      (compute_colour_counts idHash triGraph 1 ≠ [] ∧
        PosCounts (compute_colour_counts idHash triGraph 1) ∧
        compute_colour_counts idHash triGraph 1 ≠ [] ∧
        PosCounts (compute_colour_counts idHash triGraph 1) ∧
        0 < vecNorm (colour_vector
            (union_colours (compute_colour_counts idHash triGraph 1)
              (compute_colour_counts idHash triGraph 1))
            (compute_colour_counts idHash triGraph 1)) ∧
        0 < vecNorm (colour_vector
            (union_colours (compute_colour_counts idHash triGraph 1)
              (compute_colour_counts idHash triGraph 1))
            (compute_colour_counts idHash triGraph 1))) :=
  ⟨by decide, claim_C7_norms_positive idHash triGraph triGraph 1 (by decide) (by decide)⟩

/-- Claim C9: with zero iterations no refinement round runs — the result is the
comparator applied to the histograms of the initial colourings, and each
histogram records exactly one observation per node, namely the hash of its
degree (undirected) or of its (in-degree, out-degree) pair (directed). -/
theorem claim_C9_zero_iterations (h : HashFn) (G1 G2 : Graph)
    (h1 : G1.nodes ≠ []) (h2 : G2.nodes ≠ []) :
    wlgk h G1 G2 0 =
      compute_wlgk_from_colour_counts
        (update_colour_counts [] (G1.nodes.map (get_initial_colours h G1)))
        (update_colour_counts [] (G2.nodes.map (get_initial_colours h G2))) ∧
    (∀ c : ℤ, countGet (compute_colour_counts h G1 0) c =
      (G1.nodes.map (fun v =>
        if G1.directed then h.tup [(G1.in_deg v : ℤ), (G1.out_deg v : ℤ)]
        else h.int (G1.deg v))).count c) ∧
    (∀ c : ℤ, countGet (compute_colour_counts h G2 0) c =
      (G2.nodes.map (fun v =>
        if G2.directed then h.tup [(G2.in_deg v : ℤ), (G2.out_deg v : ℤ)]
        else h.int (G2.deg v))).count c) := by
  have hlen : ¬ (G1.nodes.length = 0 ∨ G2.nodes.length = 0) := by
    simp [List.length_eq_zero, h1, h2]
  have hcc : ∀ G : Graph, compute_colour_counts h G 0 =
      update_colour_counts [] (G.nodes.map (get_initial_colours h G)) := fun G => rfl
  refine ⟨?_, ?_, ?_⟩
  · unfold wlgk
    rw [if_neg hlen, hcc G1, hcc G2]
  · intro c
    rw [hcc G1, countGet_update]
    simp only [countGet, Nat.zero_add]
    rfl
  · intro c
    rw [hcc G2, countGet_update]
    simp only [countGet, Nat.zero_add]
    rfl

/-- Witness for claim C9: triangle against triangle. -/
theorem claim_C9_zero_iterations_witness :
    (triGraph.nodes ≠ []) ∧
      (wlgk idHash triGraph triGraph 0 =
        compute_wlgk_from_colour_counts
          (update_colour_counts [] (triGraph.nodes.map (get_initial_colours idHash triGraph)))
          (update_colour_counts [] (triGraph.nodes.map (get_initial_colours idHash triGraph))) ∧
      (∀ c : ℤ, countGet (compute_colour_counts idHash triGraph 0) c =
        (triGraph.nodes.map (fun v =>
          if triGraph.directed then idHash.tup [(triGraph.in_deg v : ℤ), (triGraph.out_deg v : ℤ)]
          else idHash.int (triGraph.deg v))).count c) ∧
      (∀ c : ℤ, countGet (compute_colour_counts idHash triGraph 0) c =
        (triGraph.nodes.map (fun v =>
          if triGraph.directed then idHash.tup [(triGraph.in_deg v : ℤ), (triGraph.out_deg v : ℤ)]
          else idHash.int (triGraph.deg v))).count c)) :=
  ⟨by decide, claim_C9_zero_iterations idHash triGraph triGraph (by decide) (by decide)⟩

end Wlgk
